import Mathlib

/-!
Verification of `.github/workflows/scripts/build_directory_md.py`.

The script walks a filesystem tree, collects `.rs` files (excluding `mod.rs`
and pruning directories whose name starts with `.` or `_`), sorts the
collected relative paths case-insensitively, and renders a markdown outline.

The embedding models:
  * the filesystem as a tree of named directories and files (`FsTree`);
    the whole filesystem visible to the process is a map `String → FsTree`
    from a starting directory to the subtree rooted there;
  * the Python string/path primitives (`str.lower`, `str.title`,
    `str.replace`, `str.split`, `str.lstrip("./")`, `os.path.join`,
    `os.path.split`, `os.path.splitext`, string repetition, `str.join`)
    as executable functions on `List Char`/`String`.  Where Python uses
    full Unicode case rules the model uses the ASCII rules (the repository
    only contains ASCII file names);
  * `os.walk` with the in-place pruning `dirnames[:] = [d for d in dirnames
    if d[0] not in "._"]` as a recursive walk that never descends into a
    pruned directory;
  * `sorted(..., key=str.lower)` — a stable sort by the lowercased key,
    comparing strings by code points — as a stable insertion sort with the
    same total preorder (a stable sort is uniquely determined by the input
    order and the preorder, so any stable algorithm gives Python's output);
  * the process-global accumulator `g_output` as explicit state threaded
    through `build_directory_md_st`; `build_directory_md` is a call made
    with the accumulator in its initial (process start) empty state.
-/

/-- `URL_BASE` from the script. -/
def URL_BASE : String := "https://github.com/TheAlgorithms/Rust/blob/master"

/-- ASCII model of Python `str.lower`: lowercase every character. -/
def pyLower (s : String) : String := ⟨s.data.map Char.toLower⟩

/-- Helper for `pyTitle`: the Bool records whether the previous character was
alphabetic ("cased" in Python terms, restricted to ASCII). -/
def pyTitleAux : Bool → List Char → List Char
  | _, [] => []
  | prevAlpha, c :: rest =>
      (if c.isAlpha then (if prevAlpha then c.toLower else c.toUpper) else c) ::
        pyTitleAux c.isAlpha rest

/-- ASCII model of Python `str.title`: uppercase each letter that does not
follow a letter, lowercase every other letter. -/
def pyTitle (s : String) : String := ⟨pyTitleAux false s.data⟩

/-- Python `str.replace(pat, rep)` for a one-character pattern: replace every
occurrence of the character `pat` by `rep`. -/
def pyReplaceChar (pat : Char) (rep : String) (s : String) : String :=
  ⟨s.data.flatMap (fun c => if c = pat then rep.data else [c])⟩

/-- Python string repetition `n * s`. -/
def pyRepeat : Nat → String → String
  | 0, _ => ""
  | n + 1, s => s ++ pyRepeat n s

/-- Python `str.join` on a list of strings. -/
def pyIntercalate (sep : String) : List String → String
  | [] => ""
  | [x] => x
  | x :: y :: rest => x ++ sep ++ pyIntercalate sep (y :: rest)

/-- Python `str.split(sep)` for a one-character separator, on character
lists: split at every occurrence of `sep`, keeping empty pieces.  The result
is never empty (`"".split(sep) == [""]`). -/
def pySplitAux (sep : Char) : List Char → List (List Char)
  | [] => [[]]
  | c :: rest =>
      match pySplitAux sep rest with
      | [] => [[c]]
      | h :: t => if c = sep then [] :: h :: t else (c :: h) :: t

/-- Python `str.split(sep)` for a one-character separator. -/
def pySplit (sep : Char) (s : String) : List String :=
  (pySplitAux sep s.data).map String.mk

/-- Lexicographic comparison of character lists by code point; this is the
order Python uses to compare strings (`a <= b`). -/
def lexLe : List Char → List Char → Bool
  | [], _ => true
  | _ :: _, [] => false
  | a :: as, b :: bs => if a = b then lexLe as bs else decide (a < b)

/-- `posixpath.join` for two components: if the second starts with `/` it
replaces the first; otherwise they are glued with `/` unless the first is
empty or already ends with `/`. -/
def pyJoin (a b : String) : String :=
  if b.data.head? = some '/' then b
  else if a.data = [] ∨ a.data.getLast? = some '/' then a ++ b
  else a ++ "/" ++ b

/-- Python `str.lstrip("./")`: drop every leading character belonging to the
set `{'.', '/'}`. -/
def pyLstrip (s : String) : String :=
  ⟨s.data.dropWhile (fun c => c == '.' || c == '/')⟩

/-- `posixpath.splitext`: split off the extension at the last `.` of the
final path component, unless the only dots of that component are leading
ones (then there is no extension).  The extension includes the dot. -/
def pySplitExt (p : String) : String × String :=
  if ((((p.data.reverse.takeWhile (fun c => c != '/')).reverse).dropWhile
        (fun c => c == '.')).contains '.') then
    (⟨(p.data.reverse.drop
        ((p.data.reverse.takeWhile (fun c => c != '.')).length + 1)).reverse⟩,
     ⟨'.' :: (p.data.reverse.takeWhile (fun c => c != '.')).reverse⟩)
  else (p, "")

/-- `posixpath.split`: the tail is everything after the last `/`; the head is
everything before it, with trailing slashes removed unless the head consists
only of slashes. -/
def pySplitPath (p : String) : String × String :=
  let rev := p.data.reverse
  let tailRev := rev.takeWhile (fun c => c != '/')
  let headRev := rev.drop tailRev.length
  let headFinalRev :=
    if headRev.isEmpty || headRev.all (fun c => c == '/') then headRev
    else headRev.dropWhile (fun c => c == '/')
  (⟨headFinalRev.reverse⟩, ⟨tailRev.reverse⟩)

mutual
/-- A filesystem subtree: named subdirectories and file names.  `DirList` is
a specialised list so that the two types form a mutual (non-nested)
inductive family. -/
inductive FsTree where
  | node (dirs : DirList) (files : List String)
/-- The subdirectories of a node: (name, subtree) pairs. -/
inductive DirList where
  | nil
  | cons (name : String) (tree : FsTree) (rest : DirList)
end

/-- The pruning test `d[0] not in "._"` from `good_filepaths` (line 13 of the
script).  Python would raise on an empty name; a real `os.walk` never yields
one, and the model keeps empty names. -/
def keepDir (d : String) : Bool :=
  match d.data with
  | [] => true
  | c :: _ => !(c == '.' || c == '_')

mutual
/-- `os.walk(top_dir)` with the in-place pruning of dot/underscore
directories, flattened to the list of `(dirpath, filename)` pairs the
script's inner loop visits: the current directory's files first, then each
kept subdirectory depth-first, in order.  `dirpath` of a subdirectory is
`os.path.join` of the parent's `dirpath` and the directory name. -/
def walkTree (path : String) : FsTree → List (String × String)
  | .node dirs files => files.map (fun f => (path, f)) ++ walkDirs path dirs
def walkDirs (path : String) : DirList → List (String × String)
  | .nil => []
  | .cons d t rest =>
      (if keepDir d then walkTree (pyJoin path d) t else []) ++ walkDirs path rest
end

/-- A real filesystem name: nonempty and without `/`. -/
def wfName (s : String) : Bool := s != "" && !(s.data.contains '/')

mutual
/-- Well-formed tree: every directory and file name is a real filesystem
name (nonempty, no `/`).  `os.walk` only ever reports such names. -/
def FsTree.wf : FsTree → Bool
  | .node dirs files => files.all wfName && dirs.wf
def DirList.wf : DirList → Bool
  | .nil => true
  | .cons d t rest => wfName d && t.wf && rest.wf
end

/-- `fs_exts = tuple(".rs".split())` (line 11 of the script). -/
def fs_exts : List String := [".rs"]

/-- The file filter of `good_filepaths` (line 15):
`filename != "mod.rs" and os.path.splitext(filename)[1].lower() in fs_exts`. -/
def goodFile (filename : String) : Bool :=
  filename != "mod.rs" && fs_exts.contains (pyLower (pySplitExt filename).2)

/-- The yielded path of `good_filepaths` (line 16):
`os.path.join(dirpath, filename).lstrip("./")`. -/
def yield_path (dirpath filename : String) : String :=
  pyLstrip (pyJoin dirpath filename)

/-- `good_filepaths(top_dir)` (lines 10-16): walk `top_dir`, prune
dot/underscore directories, and yield the joined, `lstrip("./")`-ed path of
every file passing the filter.  `fs` maps a starting directory to the
subtree rooted there. -/
def good_filepaths (top_dir : String) (fs : String → FsTree) : List String :=
  (walkTree top_dir (fs top_dir)).filterMap
    (fun e => if goodFile e.2 then some (yield_path e.1 e.2) else none)

/-- The prefix helper of lines 19-20: i pairs of spaces then a star if i is
nonzero, else a newline and two hash marks. -/
def md_prefix (i : Nat) : String :=
  if i ≠ 0 then pyRepeat i "  " ++ "*" else "\n##"

/-- The first `/`-separated component of a path (`p.split(os.sep)[0]`). -/
def top_segment (p : String) : String := (pySplit '/' p).headD ""

/-- The lines `print_path(old_path, new_path)` (lines 23-31) appends to
`g_output`: for each indexed part of `new_path.split(os.sep)`, if the part
position exceeds `old_path`'s parts or the part differs, and the part is
nonempty, emit the prefix for depth i, a space, then the part with
underscores replaced by spaces and title-cased. -/
def print_path_entry (old_parts : List String) (ip : Nat × String) : Option String :=
  if (decide (ip.1 + 1 > old_parts.length) || (old_parts.getD ip.1 "" != ip.2))
      && (ip.2 != "") then
    some ( md_prefix ip.1 ++ " " ++ pyTitle (pyReplaceChar '_' " " ip.2))
  else none

/-- See the doc comment above: the emitted lines are the successful
`print_path_entry` results over the enumerated split of `new_path`. -/
def print_path_lines (old_path new_path : String) : List String :=
  (List.enum (pySplit '/' new_path)).filterMap (print_path_entry (pySplit '/' old_path))

/-- `indent = (filepath.count(os.sep) + 1) if filepath else 0` (line 41),
where `filepath` is the directory portion of the split path. -/
def file_indent (dir : String) : Nat :=
  if dir ≠ "" then (dir.data.count '/') + 1 else 0

/-- `url = "/".join((URL_BASE, filepath, filename)).replace(" ", "%20")`
(line 42). -/
def file_url (dir filename : String) : String :=
  pyReplaceChar ' ' "%20" (URL_BASE ++ "/" ++ dir ++ "/" ++ filename)

/-- `os.path.splitext(filename.replace("_", " ").title())[0]` (line 43). -/
def file_display_name (filename : String) : String :=
  (pySplitExt (pyTitle (pyReplaceChar '_' " " filename))).1

/-- The file entry line of line 45 - the prefix for the indent depth, then
the bracketed display name and parenthesised url - for a split path
`(dir, filename)`. -/
def file_entry_line (dir filename : String) : String :=
  md_prefix (file_indent dir) ++ " [" ++ file_display_name filename ++ "](" ++
    file_url dir filename ++ ")"

/-- One iteration of the loop of `build_directory_md` (lines 38-45), acting
on the state (accumulated `g_output`, `old_path` cursor). -/
def processFile (st : List String × String) (filepath : String) :
    List String × String :=
  let dir := (pySplitPath filepath).1
  let filename := (pySplitPath filepath).2
  let g1 := if dir ≠ st.2 then st.1 ++ print_path_lines st.2 dir else st.1
  let old1 := if dir ≠ st.2 then dir else st.2
  (g1 ++ [file_entry_line dir filename], old1)

/-- The preorder `str.lower(a) <= str.lower(b)` used by
`sorted(good_filepaths(), key=str.lower)`. -/
def lowerLe (a b : String) : Prop :=
  lexLe (pyLower a).data (pyLower b).data = true

instance : DecidableRel lowerLe := fun _ _ => inferInstanceAs (Decidable (_ = true))

/-- `sorted(good_filepaths(), key=str.lower)` (line 37).  Note that the
source calls `good_filepaths()` with its default argument `"."` regardless
of the `top_dir` passed to `build_directory_md`.  Python's `sorted` is a
stable sort by the lowered key; a stable sort is uniquely determined by the
preorder, so the stable `insertionSort` yields the identical list. -/
def sorted_good_filepaths (fs : String → FsTree) : List String :=
  List.insertionSort lowerLe (good_filepaths "." fs)

/-- `build_directory_md(top_dir)` (lines 34-47) with the process-global
accumulator `g_output` made explicit: called with accumulator `g0`, it
returns the final accumulator and the returned document
`"# List of all files\n" + "\n".join(g_output)`.  As in the source, the
`top_dir` argument is not forwarded to `good_filepaths`. -/
def build_directory_md_st (g0 : List String) (fs : String → FsTree)
    (top_dir : String) : List String × String :=
  let st := (sorted_good_filepaths fs).foldl processFile (g0, "")
  (st.1, "# List of all files\n" ++ pyIntercalate "\n" st.1)

/-- `build_directory_md(top_dir)` as called with `g_output` in its initial
empty state (a fresh process). -/
def build_directory_md (fs : String → FsTree) (top_dir : String) : String :=
  (build_directory_md_st [] fs top_dir).2

-- Sanity checks of the model on concrete inputs.
example : pySplitExt "bubble_sort.rs" = ("bubble_sort", ".rs") := by decide
example : pySplitExt ".rs" = (".rs", "") := by decide
example : pySplitExt ".mod.rs" = (".mod", ".rs") := by decide
example : pySplitPath "sorting/bubble_sort.rs" = ("sorting", "bubble_sort.rs") := by decide
example : pySplitPath "a.rs" = ("", "a.rs") := by decide
example : pyTitle "bubble sort.rs" = "Bubble Sort.Rs" := by decide
example : pySplit '/' "" = [""] := by decide
example : pySplit '/' "a/b" = ["a", "b"] := by decide
example : yield_path "." ".mod.rs" = "mod.rs" := by decide
example : yield_path "./sorting" "bubble_sort.rs" = "sorting/bubble_sort.rs" := by decide

/-! ### Basic string and list lemmas -/

theorem str_data_append (a b : String) : (a ++ b).data = a.data ++ b.data := rfl

theorem str_mk_data (l : List Char) : (String.mk l).data = l := rfl

theorem pyRepeat_two_spaces (n : Nat) :
    pyRepeat n "  " = String.mk (List.replicate (2 * n) ' ') := by
  induction n with
  | zero => rfl
  | succ k ih =>
    show "  " ++ pyRepeat k "  " = _
    apply String.ext
    rw [str_data_append, ih]
    show ' ' :: ' ' :: List.replicate (2 * k) ' ' = (List.replicate (2 * (k + 1)) ' ')
    have h2 : 2 * (k + 1) = 2 * k + 1 + 1 := by omega
    rw [h2, List.replicate_succ, List.replicate_succ]

/-- Claim C7: for every file entry, the indentation depth is the count of
path separators in the directory portion plus one (zero for an empty
directory); a depth-0 line is rendered with the heading marker `"\n##"`
(a blank line then `##`), and a depth-d line (d ≥ 1) with d pairs of spaces
followed by `*`; the entry text is `[display name](url)`. -/
theorem spec_c7 (dir filename : String) :
    file_entry_line dir filename =
      (if dir = "" then "\n##"
       else String.mk (List.replicate (2 * ((dir.data.count '/') + 1)) ' ') ++ "*")
      ++ " [" ++ file_display_name filename ++ "](" ++ file_url dir filename ++ ")" := by
  by_cases h : dir = ""
  · simp [file_entry_line, file_indent, md_prefix, h]
  · simp [file_entry_line, file_indent, md_prefix, h, pyRepeat_two_spaces]

/-! ### Claim C8: heading emission -/

theorem pySplitAux_ne_nil (sep : Char) (l : List Char) : pySplitAux sep l ≠ [] := by
  cases l with
  | nil => simp [pySplitAux]
  | cons c rest =>
    unfold pySplitAux
    split
    · simp
    · split <;> simp

theorem pySplit_ne_nil (sep : Char) (s : String) : pySplit sep s ≠ [] := by
  unfold pySplit
  simp [pySplitAux_ne_nil]

theorem heading_at_zero (X : String) :
    "\n##".data.isPrefixOf ( md_prefix 0 ++ " " ++ X).data = true := by
  have h : ( md_prefix 0 ++ " " ++ X).data = '\n' :: '#' :: '#' :: ' ' :: X.data := rfl
  rw [h]
  simp [List.isPrefixOf]

theorem heading_not_deep (i : Nat) (X : String) :
    "\n##".data.isPrefixOf ( md_prefix (i + 1) ++ " " ++ X).data = false := by
  have h1 : md_prefix (i + 1) = ("  " ++ pyRepeat i "  ") ++ "*" := by
    simp [ md_prefix, pyRepeat]
  have h2 : ( md_prefix (i + 1) ++ " " ++ X).data =
      ' ' :: ' ' :: ((pyRepeat i "  ").data ++ "*".data ++ " ".data ++ X.data) := by
    rw [h1]
    simp [str_data_append]
  rw [h2]
  simp [List.isPrefixOf]

theorem no_heading_from_deep (ops : List String) (k : Nat) (parts : List String) :
    ((List.enumFrom (k + 1) parts).filterMap (print_path_entry ops)).any
      (fun l => "\n##".data.isPrefixOf l.data) = false := by
  rw [List.any_eq_false]
  intro x hx
  rw [List.mem_filterMap] at hx
  obtain ⟨ip, hmem, hfeq⟩ := hx
  obtain ⟨i, a⟩ := ip
  unfold print_path_entry at hfeq
  dsimp only at hfeq
  have hge : k + 1 ≤ i := (List.mem_enumFrom hmem).1
  obtain ⟨j, hj⟩ : ∃ j, i = j + 1 := ⟨i - 1, by omega⟩
  subst hj
  by_cases hc : ((decide (j + 1 + 1 > ops.length) || (ops.getD (j + 1) "" != a))
      && (a != "")) = true
  · rw [if_pos hc] at hfeq
    have hxeq : x = md_prefix (j + 1) ++ " " ++ pyTitle (pyReplaceChar '_' " " a) :=
      (Option.some_inj.mp hfeq).symm
    rw [hxeq]
    intro hcontra
    rw [heading_not_deep] at hcontra
    exact absurd hcontra (by simp)
  · rw [if_neg hc] at hfeq
    exact absurd hfeq (by simp)

theorem any_heading_print (ops : List String) (hops : ops ≠ []) (n0 : String)
    (nrest : List String) :
    ((List.enum (n0 :: nrest)).filterMap (print_path_entry ops)).any
        (fun l => "\n##".data.isPrefixOf l.data)
      = ((ops.getD 0 "" != n0) && (n0 != "")) := by
  have henum : List.enum (n0 :: nrest) = (0, n0) :: List.enumFrom 1 nrest := rfl
  rw [henum]
  have hlen : decide (0 + 1 > ops.length) = false := by
    rw [decide_eq_false_iff_not]
    cases ops with
    | nil => exact absurd rfl hops
    | cons x xs => simp
  by_cases hc : ((ops.getD 0 "" != n0) && (n0 != "")) = true
  · have hf : print_path_entry ops ((0 : Nat), n0)
        = some ( md_prefix 0 ++ " " ++ pyTitle (pyReplaceChar '_' " " n0)) := by
      unfold print_path_entry
      dsimp only
      rw [if_pos]
      rw [hlen, Bool.false_or]
      exact hc
    rw [List.filterMap_cons_some hf, List.any_cons]
    dsimp only
    rw [heading_at_zero, Bool.true_or, hc]
  · have hf : print_path_entry ops ((0 : Nat), n0) = none := by
      unfold print_path_entry
      dsimp only
      rw [if_neg]
      rw [hlen, Bool.false_or]
      exact hc
    rw [List.filterMap_cons_none hf]
    rw [no_heading_from_deep ops 0 nrest]
    have hfalse : ((ops.getD 0 "" != n0) && (n0 != "")) = false := Bool.eq_false_iff.mpr hc
    rw [hfalse]

/-- Claim C8: in the sorted processing order (the cursor `old_path` holds the
previous file's directory portion, initially `""`), a new top-level heading
line — one whose text starts with `"\n##"` — is emitted for a file with
directory `new_path` if and only if the top-level directory segment of
`new_path` differs from that of `old_path`, with an empty segment never
emitted.  The `if` mirrors the guard `if filepath != old_path` of the loop
(line 39): no lines at all are emitted when the directories agree. -/
theorem spec_c8 (old_path new_path : String) :
    ((if new_path = old_path then [] else print_path_lines old_path new_path).any
        (fun l => "\n##".data.isPrefixOf l.data)) = true
    ↔ (top_segment new_path ≠ top_segment old_path ∧ top_segment new_path ≠ "") := by
  by_cases heq : new_path = old_path
  · rw [if_pos heq, heq]
    simp
  · rw [if_neg heq]
    obtain ⟨n0, nrest, hn⟩ := List.exists_cons_of_ne_nil (pySplit_ne_nil '/' new_path)
    obtain ⟨o0, orest, ho⟩ := List.exists_cons_of_ne_nil (pySplit_ne_nil '/' old_path)
    have htn : top_segment new_path = n0 := by rw [top_segment, hn]; rfl
    have hto : top_segment old_path = o0 := by rw [top_segment, ho]; rfl
    have hgd : (pySplit '/' old_path).getD 0 "" = o0 := by rw [ho]; rfl
    rw [htn, hto]
    unfold print_path_lines
    rw [hn]
    rw [any_heading_print (pySplit '/' old_path) (pySplit_ne_nil '/' old_path) n0 nrest]
    rw [hgd]
    rw [Bool.and_eq_true, bne_iff_ne, bne_iff_ne]
    constructor
    · intro h
      exact ⟨fun hne => h.1 hne.symm, h.2⟩
    · intro h
      exact ⟨fun hne => h.1 hne.symm, h.2⟩

/-- Witness for C8 at a concrete input: moving from the root cursor to the
directory `sorting` emits a top-level heading. -/
theorem spec_c8_witness :
    ((if "sorting" = "" then [] else print_path_lines "" "sorting").any
        (fun l => "\n##".data.isPrefixOf l.data)) = true :=
  (spec_c8 "" "sorting").mpr (by constructor <;> decide)

/-! ### Claim C3: the accumulator `g_output` persists across invocations -/

theorem processFile_append (g : List String) (old : String) (x : String) :
    processFile (g, old) x
      = (g ++ (processFile ([], old) x).1, (processFile ([], old) x).2) := by
  unfold processFile
  dsimp only
  by_cases h : (pySplitPath x).1 ≠ old <;> simp [h, List.append_assoc]

theorem foldl_processFile_append (xs : List String) :
    ∀ (g : List String) (old : String),
      xs.foldl processFile (g, old)
        = (g ++ (xs.foldl processFile ([], old)).1, (xs.foldl processFile ([], old)).2) := by
  induction xs with
  | nil => intro g old; simp
  | cons x xs ih =>
    intro g old
    rw [List.foldl_cons, List.foldl_cons]
    rcases hpx : processFile ([], old) x with ⟨d, o⟩
    have h1 : processFile (g, old) x = (g ++ d, o) := by
      rw [processFile_append g old x, hpx]
    rw [h1]
    rw [ih (g ++ d) o, ih d o]
    simp [List.append_assoc]

theorem build_st_acc (g0 : List String) (fs : String → FsTree) (top_dir : String) :
    build_directory_md_st g0 fs top_dir
      = (g0 ++ (build_directory_md_st [] fs top_dir).1,
         "# List of all files\n"
           ++ pyIntercalate "\n" (g0 ++ (build_directory_md_st [] fs top_dir).1)) := by
  unfold build_directory_md_st
  dsimp only
  rw [foldl_processFile_append (sorted_good_filepaths fs) g0 ""]

/-- The tree used to refute claim C3 as stated: a single top-level file. -/
def fsC3 : String → FsTree := fun _ => .node .nil ["a.rs"]

set_option maxRecDepth 10000 in
/-- Claim C3 counterexample: two successive invocations of
`build_directory_md` within one process do not return equal documents.  The
first call starts from the empty `g_output` and leaves the accumulator
filled; the second call starts from that accumulator and returns a document
with every line duplicated. -/
theorem spec_c3_counterexample :
    (build_directory_md_st (build_directory_md_st [] fsC3 ".").1 fsC3 ".").2
      ≠ (build_directory_md_st [] fsC3 ".").2 := by decide

/-- Claim C3 (amended): a run with the accumulator in its initial empty
state — a fresh process — returns the deterministic document
`"# List of all files\n"` + the newline-join of the lines computed from the
snapshot, so two such runs give byte-identical output; but a second
invocation within the same process starts from the persisted accumulator
and returns the document with all accumulated lines duplicated. -/
theorem spec_c3_amended (fs : String → FsTree) (top_dir : String) :
    build_directory_md fs top_dir
        = "# List of all files\n" ++ pyIntercalate "\n" (build_directory_md_st [] fs top_dir).1
      ∧ (build_directory_md_st (build_directory_md_st [] fs top_dir).1 fs top_dir).2
        = "# List of all files\n"
            ++ pyIntercalate "\n"
              ((build_directory_md_st [] fs top_dir).1
                ++ (build_directory_md_st [] fs top_dir).1) := by
  constructor
  · rfl
  · rw [build_st_acc (build_directory_md_st [] fs top_dir).1 fs top_dir]

/-! ### Claims C1, C2, C9 -/

/-- The filesystem of claim C1: the tree contains exactly
`sorting/bubble_sort.rs` and `sorting/quick_sort.rs`. -/
def fsC1 : String → FsTree := fun _ =>
  .node (.cons "sorting" (.node .nil ["bubble_sort.rs", "quick_sort.rs"]) .nil) []

set_option maxRecDepth 10000 in
/-- Claim C1 counterexample: the document is not the claimed one — the claim
renders the two file entries as `* [...]` with no indentation, but the
script indents depth-1 entries by one pair of spaces (`"  * [...]"`). -/
theorem spec_c1_counterexample :
    build_directory_md fsC1 "."
      ≠ "# List of all files\n\n## Sorting\n* [Bubble Sort](https://github.com/TheAlgorithms/Rust/blob/master/sorting/bubble_sort.rs)\n* [Quick Sort](https://github.com/TheAlgorithms/Rust/blob/master/sorting/quick_sort.rs)" := by
  decide

set_option maxRecDepth 10000 in
/-- Claim C1 (amended): for that input tree the document is exactly the
title line, a blank line, `## Sorting`, and the two entries in order, each
indented by one pair of spaces: `  * [Bubble Sort](...)`,
`  * [Quick Sort](...)`, newline-joined. -/
theorem spec_c1_amended :
    build_directory_md fsC1 "."
      = "# List of all files\n\n## Sorting\n  * [Bubble Sort](https://github.com/TheAlgorithms/Rust/blob/master/sorting/bubble_sort.rs)\n  * [Quick Sort](https://github.com/TheAlgorithms/Rust/blob/master/sorting/quick_sort.rs)" := by
  decide

/-- The filesystem of claim C2: the subtree at `"."` holds `a.rs`, the
subtree at `"subdir"` holds `b.rs`. -/
def fsC2 : String → FsTree := fun top_dir =>
  if top_dir = "subdir" then .node .nil ["b.rs"] else .node .nil ["a.rs"]

set_option maxRecDepth 10000 in
/-- Claim C2 is violated by the code: `build_directory_md(top_dir)` takes a
starting-directory argument, but its body calls `good_filepaths()` with the
default `"."` (line 37), so the output never depends on `top_dir`: calling
it on `"subdir"` indexes the current directory's `a.rs` instead of
`subdir`'s `b.rs`. -/
theorem spec_c2_bug :
    (∀ (fs : String → FsTree) (t1 t2 : String),
        build_directory_md fs t1 = build_directory_md fs t2)
      ∧ build_directory_md fsC2 "subdir"
        = "# List of all files\n\n## [A](https://github.com/TheAlgorithms/Rust/blob/master//a.rs)" := by
  constructor
  · intro fs t1 t2
    rfl
  · decide

/-- The filesystem of claim C9: top-level files `Mod.rs` and `MOD.RS`. -/
def fsC9 : String → FsTree := fun _ => .node .nil ["Mod.rs", "MOD.RS"]

set_option maxRecDepth 10000 in
/-- Claim C9: the extension filter is case-insensitive (any file whose
extension is `.RS` or `.Rs` passes), while the `mod.rs` exclusion compares
exactly and case-sensitively, so `Mod.rs` and `MOD.RS` pass the filter, are
yielded by `good_filepaths`, and appear in the built document. -/
theorem spec_c9 :
    (∀ f : String, (pySplitExt f).2 = ".RS" → goodFile f = true)
    ∧ (∀ f : String, (pySplitExt f).2 = ".Rs" → goodFile f = true)
    ∧ goodFile "Mod.rs" = true ∧ goodFile "MOD.RS" = true ∧ goodFile "mod.rs" = false
    ∧ good_filepaths "." fsC9 = ["Mod.rs", "MOD.RS"]
    ∧ build_directory_md fsC9 "."
      = "# List of all files\n\n## [Mod](https://github.com/TheAlgorithms/Rust/blob/master//Mod.rs)\n\n## [Mod](https://github.com/TheAlgorithms/Rust/blob/master//MOD.RS)" := by
  refine ⟨?_, ?_, by decide, by decide, by decide, by decide, by decide⟩
  · intro f h
    have hne : f ≠ "mod.rs" := by
      intro hf
      rw [hf] at h
      exact absurd h (by decide)
    unfold goodFile
    rw [h, Bool.and_eq_true]
    exact ⟨bne_iff_ne.mpr hne, by decide⟩
  · intro f h
    have hne : f ≠ "mod.rs" := by
      intro hf
      rw [hf] at h
      exact absurd h (by decide)
    unfold goodFile
    rw [h, Bool.and_eq_true]
    exact ⟨bne_iff_ne.mpr hne, by decide⟩

/-- Witness for C9: concrete files with uppercase extensions pass the
filter. -/
theorem spec_c9_witness :
    ((pySplitExt "abc.RS").2 = ".RS" ∧ goodFile "abc.RS" = true)
    ∧ ((pySplitExt "xy.Rs").2 = ".Rs" ∧ goodFile "xy.Rs" = true) :=
  ⟨⟨by decide, spec_c9.1 "abc.RS" (by decide)⟩,
   ⟨by decide, spec_c9.2.1 "xy.Rs" (by decide)⟩⟩

/-! ### Claim C10: `lstrip("./")` on top-level files -/

theorem dropWhile_dotslash_of_no_slash (l : List Char) (h : '/' ∉ l) :
    l.dropWhile (fun c => c == '.' || c == '/') = l.dropWhile (fun c => c == '.') := by
  induction l with
  | nil => rfl
  | cons c rest ih =>
    have hc : c ≠ '/' := fun hcc => h (hcc ▸ List.mem_cons_self c rest)
    have hrest : '/' ∉ rest := fun hm => h (List.mem_cons_of_mem c hm)
    by_cases hdot : c = '.'
    · subst hdot
      simp only [List.dropWhile_cons]
      rw [ih hrest]
      simp
    · simp only [List.dropWhile_cons]
      have h1 : ((c == '.') || (c == '/')) = false := by
        simp [hdot, hc]
      have h2 : (c == '.') = false := by simp [hdot]
      rw [h1, h2]
      simp

theorem yield_path_top_eq (f : String) (h : '/' ∉ f.data) :
    yield_path "." f = String.mk (f.data.dropWhile (fun c => c == '.')) := by
  have hhead : ¬ f.data.head? = some '/' := by
    cases hd : f.data with
    | nil => simp
    | cons c rest =>
      simp only [List.head?]
      intro hcc
      have hcslash : c = '/' := by
        injection hcc
      rw [hd] at h
      exact h (hcslash ▸ List.mem_cons_self c rest)
  unfold yield_path pyJoin
  rw [if_neg hhead, if_neg (by decide)]
  unfold pyLstrip
  have hdata : ("." ++ "/" ++ f).data = '.' :: '/' :: f.data := rfl
  rw [hdata]
  have h1 : List.dropWhile (fun c => c == '.' || c == '/') ('.' :: '/' :: f.data)
      = List.dropWhile (fun c => c == '.' || c == '/') f.data := by
    simp [List.dropWhile_cons]
  rw [h1, dropWhile_dotslash_of_no_slash f.data h]

/-- Claim C10: `good_filepaths` strips every leading `.` and `/` character
from the joined path, not merely a `./` prefix: for a top-level file `f`
(walk directory `"."`, so the joined path is `"./" ++ f`), the yielded
relative path is `f` with all its leading dots removed. -/
theorem spec_c10 (f : String) (h : '/' ∉ f.data) :
    yield_path "." f = String.mk (f.data.dropWhile (fun c => c == '.')) :=
  yield_path_top_eq f h

/-- Witness for C10: the top-level file `..hidden.rs` is yielded as
`hidden.rs`, both leading dots removed. -/
theorem spec_c10_witness :
    ('/' ∉ "..hidden.rs".data) ∧ yield_path "." "..hidden.rs" = "hidden.rs" := by
  refine ⟨by decide, ?_⟩
  rw [spec_c10 "..hidden.rs" (by decide)]
  decide

/-! ### Machinery for claims C4 and C5: string algebra and walk invariants -/

theorem str_append_assoc (a b c : String) : (a ++ b) ++ c = a ++ (b ++ c) := by
  apply String.ext
  show ((a ++ b) ++ c).data = (a ++ (b ++ c)).data
  simp [str_data_append, List.append_assoc]

theorem str_append_empty (a : String) : a ++ "" = a := by
  apply String.ext
  show (a ++ "").data = a.data
  simp [str_data_append]

theorem takeWhile_append_break (p : Char → Bool) (l1 : List Char) (a : Char)
    (l2 : List Char) (ha : p a = false) :
    (l1 ++ a :: l2).takeWhile p = l1.takeWhile p := by
  induction l1 with
  | nil => simp [List.takeWhile_cons, ha]
  | cons c cs ih =>
    rw [List.cons_append, List.takeWhile_cons, List.takeWhile_cons]
    by_cases hc : p c = true
    · rw [if_pos hc, if_pos hc, ih]
    · rw [if_neg hc, if_neg hc]

theorem takeWhile_append_of_mem_break (p : Char → Bool) (l1 l2 : List Char)
    (h : ∃ a ∈ l1, p a = false) :
    (l1 ++ l2).takeWhile p = l1.takeWhile p := by
  induction l1 with
  | nil =>
    obtain ⟨a, ha, _⟩ := h
    exact absurd ha (List.not_mem_nil a)
  | cons c cs ih =>
    rw [List.cons_append, List.takeWhile_cons, List.takeWhile_cons]
    by_cases hc : p c = true
    · rw [if_pos hc, if_pos hc]
      obtain ⟨a, ha, hpa⟩ := h
      rcases List.mem_cons.mp ha with rfl | hmem
      · exact absurd hc (by rw [hpa]; simp)
      · rw [ih ⟨a, hmem, hpa⟩]
    · rw [if_neg hc, if_neg hc]

theorem dropWhile_dropWhile (p : Char → Bool) (l : List Char) :
    (l.dropWhile p).dropWhile p = l.dropWhile p := by
  induction l with
  | nil => rfl
  | cons c cs ih =>
    rw [List.dropWhile_cons]
    by_cases hc : p c = true
    · rw [if_pos hc]
      exact ih
    · rw [if_neg hc, List.dropWhile_cons, if_neg hc]

theorem takeWhile_ne_slash_of_no_slash (l : List Char) (h : '/' ∉ l) :
    l.takeWhile (fun c => c != '/') = l := by
  rw [List.takeWhile_eq_self_iff]
  intro x hx
  have : x ≠ '/' := fun hxe => h (hxe ▸ hx)
  simp [this]

theorem wfName_props {s : String} (h : wfName s = true) : s ≠ "" ∧ '/' ∉ s.data := by
  unfold wfName at h
  rw [Bool.and_eq_true] at h
  constructor
  · exact bne_iff_ne.mp h.1
  · have h2 := h.2
    rw [Bool.not_eq_true'] at h2
    simpa using h2

theorem keepDir_props {s : String} (h : keepDir s = true) :
    s.data.head? ≠ some '.' ∧ s.data.head? ≠ some '_' := by
  unfold keepDir at h
  cases hd : s.data with
  | nil => simp
  | cons c rest =>
    rw [hd] at h
    simp only [Bool.not_eq_true', Bool.or_eq_false_iff] at h
    constructor
    · intro hc
      have : c = '.' := by injection hc
      rw [this] at h
      exact absurd h.1 (by simp)
    · intro hc
      have : c = '_' := by injection hc
      rw [this] at h
      exact absurd h.2 (by simp)

/-- Under the conditions that actually hold during the walk —
the accumulated `dirpath` is nonempty and does not end in `/`, and the
appended name contains no `/` — `os.path.join` is plain gluing with `/`. -/
theorem pyJoin_eq_append (a b : String) (ha1 : a.data ≠ [])
    (ha2 : a.data.getLast? ≠ some '/') (hb : '/' ∉ b.data) :
    pyJoin a b = a ++ "/" ++ b := by
  unfold pyJoin
  have hhead : ¬ b.data.head? = some '/' := by
    cases hd : b.data with
    | nil => simp
    | cons c rest =>
      simp only [List.head?]
      intro hcc
      have hcs : c = '/' := by injection hcc
      rw [hd] at hb
      exact hb (hcs ▸ List.mem_cons_self c rest)
  rw [if_neg hhead, if_neg]
  rintro (h | h)
  · exact ha1 h
  · exact ha2 h

/-- The walk builds a subdirectory's `dirpath` as `path + "/" + name` for
each kept name; `joinSegs` is that suffix for a chain of names. -/
def joinSegs : List String → String
  | [] => ""
  | s :: rest => "/" ++ s ++ joinSegs rest

/-- A relative path assembled from slash-free components: the directory
components followed by the file part. -/
def joinComponents : List String → String → String
  | [], f => f
  | s :: rest, f => s ++ "/" ++ joinComponents rest f

/-- The directory names along a descent that the walk actually enters:
real names (nonempty, slash-free) that pass the pruning filter. -/
def SegsOk (segs : List String) : Prop :=
  ∀ s ∈ segs, s ≠ "" ∧ '/' ∉ s.data ∧ keepDir s = true

theorem str_empty_append (a : String) : "" ++ a = a := by
  apply String.ext
  show ("" ++ a).data = a.data
  simp [str_data_append]

theorem joinSegs_slash_data (segs : List String) (f : String) :
    (joinSegs segs).data ++ '/' :: f.data = '/' :: (joinComponents segs f).data := by
  induction segs with
  | nil => simp [joinSegs, joinComponents]
  | cons s rest ih =>
    show (("/" ++ s ++ joinSegs rest)).data ++ '/' :: f.data
      = '/' :: ((s ++ "/" ++ joinComponents rest f)).data
    simp only [str_data_append]
    simp only [List.append_assoc, List.cons_append, List.nil_append]
    rw [ih]

theorem string_data_ne_nil {d : String} (h : d ≠ "") : d.data ≠ [] := by
  intro he
  exact h (String.ext he)

theorem mem_of_getLast?_eq : ∀ (l : List Char) (x : Char), l.getLast? = some x → x ∈ l
  | [], x, h => by simp at h
  | [c], x, h => by
    have : x = c := by
      rw [List.getLast?_singleton] at h
      injection h
      exact (by assumption : c = x).symm
    simp [this]
  | c :: c2 :: cs, x, h => by
    rw [List.getLast?_cons_cons] at h
    exact List.mem_cons_of_mem c (mem_of_getLast?_eq (c2 :: cs) x h)

theorem pathOk_append_seg (path d : String)
    (hp : path.data ≠ [] ∧ path.data.getLast? ≠ some '/')
    (hd : d ≠ "" ∧ '/' ∉ d.data) :
    (path ++ "/" ++ d).data ≠ [] ∧ (path ++ "/" ++ d).data.getLast? ≠ some '/' := by
  have hdata : (path ++ "/" ++ d).data = path.data ++ '/' :: d.data := by
    simp [str_data_append]
  have hdne := string_data_ne_nil hd.1
  constructor
  · rw [hdata]
    simp
  · rw [hdata, List.getLast?_append]
    cases hdd : d.data with
    | nil => exact absurd hdd hdne
    | cons c cs =>
      rw [List.getLast?_cons_cons]
      have hmem : ∀ x, (c :: cs).getLast? = some x → x ≠ '/' := by
        intro x hx hxe
        have : x ∈ (c :: cs) := mem_of_getLast?_eq (c :: cs) x hx
        rw [← hdd] at this
        exact hd.2 (hxe ▸ this)
      cases hgl : (c :: cs).getLast? with
      | none => simp at hgl
      | some x =>
        intro hcontra
        rw [Option.or] at hcontra
        have : x = '/' := by injection hcontra
        exact hmem x hgl this

theorem yield_path_segs (s1 : String) (srest : List String)
    (hs : SegsOk (s1 :: srest)) (f : String) (hf : '/' ∉ f.data)
    (hpath : ("." ++ joinSegs (s1 :: srest)).data ≠ []
      ∧ ("." ++ joinSegs (s1 :: srest)).data.getLast? ≠ some '/') :
    yield_path ("." ++ joinSegs (s1 :: srest)) f = joinComponents (s1 :: srest) f := by
  have hs1 := hs s1 (List.mem_cons_self s1 srest)
  obtain ⟨c, cs, hcs⟩ := List.exists_cons_of_ne_nil (string_data_ne_nil hs1.1)
  have hc_ne_slash : c ≠ '/' := fun he => hs1.2.1 (hcs ▸ he ▸ List.mem_cons_self c cs)
  have hkd := keepDir_props hs1.2.2
  have hc_ne_dot : c ≠ '.' := by
    intro he
    apply hkd.1
    rw [hcs, he]
    rfl
  unfold yield_path
  rw [pyJoin_eq_append _ f hpath.1 hpath.2 hf]
  unfold pyLstrip
  apply String.ext
  show List.dropWhile (fun ch => ch == '.' || ch == '/')
      ((("." ++ joinSegs (s1 :: srest)) ++ "/" ++ f).data)
    = (joinComponents (s1 :: srest) f).data
  have hdata : (("." ++ joinSegs (s1 :: srest)) ++ "/" ++ f).data
      = '.' :: '/' :: (joinComponents (s1 :: srest) f).data := by
    simp only [str_data_append]
    show (['.'] ++ (joinSegs (s1 :: srest)).data) ++ ['/'] ++ f.data
      = '.' :: '/' :: (joinComponents (s1 :: srest) f).data
    rw [List.append_assoc, List.append_assoc]
    rw [List.singleton_append, List.singleton_append]
    rw [joinSegs_slash_data]
  rw [hdata]
  have hjc : (joinComponents (s1 :: srest) f).data
      = c :: (cs ++ '/' :: (joinComponents srest f).data) := by
    show ((s1 ++ "/" ++ joinComponents srest f)).data = _
    simp only [str_data_append]
    rw [hcs]
    simp
  rw [hjc]
  rw [List.dropWhile_cons, List.dropWhile_cons, List.dropWhile_cons]
  simp [hc_ne_dot, hc_ne_slash]

mutual
/-- Invariant of the pruned walk, rooted anywhere: every reported entry has
a real file name, its `dirpath` is nonempty and does not end in `/`, and the
`dirpath` is the root path possibly extended by kept, real directory
names. -/
theorem walkTree_decomp (path : String) (t : FsTree) (hw : t.wf = true)
    (hp1 : path.data ≠ []) (hp2 : path.data.getLast? ≠ some '/') :
    ∀ e ∈ walkTree path t,
      (e.2 ≠ "" ∧ '/' ∉ e.2.data)
      ∧ (e.1.data ≠ [] ∧ e.1.data.getLast? ≠ some '/')
      ∧ (e.1 = path ∨ ∃ segs, segs ≠ [] ∧ SegsOk segs ∧ e.1 = path ++ joinSegs segs) := by
  match t with
  | .node dirs files =>
    intro e he
    rw [walkTree, List.mem_append] at he
    rw [FsTree.wf, Bool.and_eq_true] at hw
    cases he with
    | inl hm =>
      obtain ⟨f, hf, hef⟩ := List.mem_map.mp hm
      have hfn : wfName f = true := List.all_eq_true.mp hw.1 f hf
      cases hef
      exact ⟨wfName_props hfn, ⟨hp1, hp2⟩, Or.inl rfl⟩
    | inr hm =>
      have hrec := walkDirs_decomp path dirs hw.2 hp1 hp2 e hm
      exact ⟨hrec.1, hrec.2.1, Or.inr hrec.2.2⟩

/-- The same invariant for the subdirectory part of the walk: every entry's
`dirpath` strictly extends the root path by at least one kept name. -/
theorem walkDirs_decomp (path : String) (dl : DirList) (hw : dl.wf = true)
    (hp1 : path.data ≠ []) (hp2 : path.data.getLast? ≠ some '/') :
    ∀ e ∈ walkDirs path dl,
      (e.2 ≠ "" ∧ '/' ∉ e.2.data)
      ∧ (e.1.data ≠ [] ∧ e.1.data.getLast? ≠ some '/')
      ∧ ∃ segs, segs ≠ [] ∧ SegsOk segs ∧ e.1 = path ++ joinSegs segs := by
  match dl with
  | .nil =>
    intro e he
    rw [walkDirs] at he
    exact absurd he (List.not_mem_nil e)
  | .cons d t rest =>
    intro e he
    rw [walkDirs, List.mem_append] at he
    rw [DirList.wf, Bool.and_eq_true, Bool.and_eq_true] at hw
    cases he with
    | inl hm =>
      by_cases hk : keepDir d = true
      · rw [if_pos hk] at hm
        have hdp := wfName_props hw.1.1
        have hjoin : pyJoin path d = path ++ "/" ++ d :=
          pyJoin_eq_append path d hp1 hp2 hdp.2
        rw [hjoin] at hm
        have hnew := pathOk_append_seg path d ⟨hp1, hp2⟩ hdp
        have hrec := walkTree_decomp (path ++ "/" ++ d) t hw.1.2 hnew.1 hnew.2 e hm
        refine ⟨hrec.1, hrec.2.1, ?_⟩
        cases hrec.2.2 with
        | inl h1 =>
          refine ⟨[d], by simp, ?_, ?_⟩
          · intro s hs
            rw [List.mem_singleton] at hs
            subst hs
            exact ⟨hdp.1, hdp.2, hk⟩
          · rw [h1]
            show (path ++ "/") ++ d = path ++ ("/" ++ d ++ "")
            rw [str_append_empty ("/" ++ d), str_append_assoc]
        | inr h2 =>
          obtain ⟨segs, hsne, hsok, hseq⟩ := h2
          refine ⟨d :: segs, by simp, ?_, ?_⟩
          · intro s hs
            rcases List.mem_cons.mp hs with rfl | hmem
            · exact ⟨hdp.1, hdp.2, hk⟩
            · exact hsok s hmem
          · rw [hseq]
            show ((path ++ "/") ++ d) ++ joinSegs segs = path ++ ("/" ++ d ++ joinSegs segs)
            rw [str_append_assoc path "/" d, str_append_assoc path ("/" ++ d) (joinSegs segs)]
      · rw [if_neg hk] at hm
        exact absurd hm (List.not_mem_nil e)
    | inr hm =>
      exact walkDirs_decomp path rest hw.2 hp1 hp2 e hm
end

theorem base_of_no_slash (q : String) (hq : '/' ∉ q.data) :
    (q.data.reverse.takeWhile (fun c => c != '/')).reverse = q.data := by
  rw [takeWhile_ne_slash_of_no_slash _ (by rw [List.mem_reverse]; exact hq)]
  exact List.reverse_reverse _

theorem joinComponents_cons_data (s : String) (rest : List String) (f : String) :
    (joinComponents (s :: rest) f).data = s.data ++ '/' :: (joinComponents rest f).data := by
  show ((s ++ "/" ++ joinComponents rest f)).data = _
  simp [str_data_append]

theorem mem_joinComponents (segs : List String) (f : String) (x : Char)
    (hx : x ∈ f.data) : x ∈ (joinComponents segs f).data := by
  induction segs with
  | nil => exact hx
  | cons s rest ih =>
    rw [joinComponents_cons_data]
    exact List.mem_append_right _ (List.mem_cons_of_mem '/' ih)

theorem base_joinComponents (segs : List String) (f : String) (hf : '/' ∉ f.data) :
    ((joinComponents segs f).data.reverse.takeWhile (fun c => c != '/')).reverse
      = f.data := by
  induction segs with
  | nil => exact base_of_no_slash f hf
  | cons s rest ih =>
    rw [joinComponents_cons_data, List.reverse_append, List.reverse_cons,
      List.append_assoc, List.singleton_append]
    rw [takeWhile_append_break _ _ '/' _ (by simp)]
    exact ih

theorem extRev_joinComponents (segs : List String) (f : String) (hdot : '.' ∈ f.data) :
    (joinComponents segs f).data.reverse.takeWhile (fun c => c != '.')
      = f.data.reverse.takeWhile (fun c => c != '.') := by
  induction segs with
  | nil => rfl
  | cons s rest ih =>
    rw [joinComponents_cons_data, List.reverse_append, List.reverse_cons,
      List.append_assoc, List.singleton_append]
    rw [takeWhile_append_of_mem_break _ _ _
      ⟨'.', List.mem_reverse.mpr (mem_joinComponents rest f '.' hdot), by simp⟩]
    exact ih

theorem splitExt_snd_joinComponents (segs : List String) (f : String) (hf : '/' ∉ f.data)
    (hcond : ((f.data.dropWhile (fun c => c == '.')).contains '.') = true) :
    (pySplitExt (joinComponents segs f)).2 = (pySplitExt f).2 := by
  have hdot_f : '.' ∈ f.data := by
    have hsub := (List.dropWhile_sublist (l := f.data) (fun c => c == '.')).subset
    have hmem : '.' ∈ f.data.dropWhile (fun c => c == '.') := by simpa using hcond
    exact hsub hmem
  have hbase := base_joinComponents segs f hf
  have hbf := base_of_no_slash f hf
  have hext := extRev_joinComponents segs f hdot_f
  unfold pySplitExt
  rw [hbase, hbf, hext]
  rw [if_pos hcond, if_pos hcond]

theorem splitExt_snd_dropdots (f : String) (hf : '/' ∉ f.data)
    (hcond : ((f.data.dropWhile (fun c => c == '.')).contains '.') = true) :
    (pySplitExt (String.mk (f.data.dropWhile (fun c => c == '.')))).2
      = (pySplitExt f).2 := by
  have hfsub : '/' ∉ f.data.dropWhile (fun c => c == '.') :=
    fun hm => hf ((List.dropWhile_sublist (fun c => c == '.')).subset hm)
  have hdot : '.' ∈ f.data.dropWhile (fun c => c == '.') := by simpa using hcond
  have hbase : ((String.mk (f.data.dropWhile (fun c => c == '.'))).data.reverse.takeWhile
      (fun c => c != '/')).reverse = f.data.dropWhile (fun c => c == '.') :=
    base_of_no_slash (String.mk (f.data.dropWhile (fun c => c == '.'))) hfsub
  have hbf := base_of_no_slash f hf
  have hcond2 : (((f.data.dropWhile (fun c => c == '.')).dropWhile
      (fun c => c == '.')).contains '.') = true := by
    rw [dropWhile_dropWhile]
    exact hcond
  have hext : (String.mk (f.data.dropWhile (fun c => c == '.'))).data.reverse.takeWhile
        (fun c => c != '.')
      = f.data.reverse.takeWhile (fun c => c != '.') := by
    show (f.data.dropWhile (fun c => c == '.')).reverse.takeWhile (fun c => c != '.') = _
    have hsplit : f.data
        = f.data.takeWhile (fun c => c == '.') ++ f.data.dropWhile (fun c => c == '.') :=
      (List.takeWhile_append_dropWhile _ _).symm
    conv_rhs => rw [hsplit]
    rw [List.reverse_append]
    rw [takeWhile_append_of_mem_break _ _ _
      ⟨'.', List.mem_reverse.mpr hdot, by simp⟩]
  unfold pySplitExt
  rw [hbase, hbf, hext]
  rw [if_pos hcond2, if_pos hcond]

theorem goodFile_ext (f : String) (h : goodFile f = true) (hf : '/' ∉ f.data) :
    ((f.data.dropWhile (fun c => c == '.')).contains '.') = true
    ∧ pyLower (pySplitExt f).2 = ".rs" := by
  unfold goodFile at h
  rw [Bool.and_eq_true] at h
  have hlow : pyLower (pySplitExt f).2 = ".rs" := by
    have hmem : pyLower (pySplitExt f).2 ∈ fs_exts := by simpa using h.2
    simpa [fs_exts] using hmem
  refine ⟨?_, hlow⟩
  by_contra hc
  have hcondf : ((((f.data.reverse.takeWhile (fun c => c != '/')).reverse).dropWhile
      (fun c => c == '.')).contains '.') = false := by
    rw [base_of_no_slash f hf]
    exact Bool.eq_false_iff.mpr hc
  have hsplit : pySplitExt f = (f, "") := by
    unfold pySplitExt
    rw [if_neg]
    rw [hcondf]
    simp
  rw [hsplit] at hlow
  dsimp only at hlow
  exact absurd hlow (by decide)

theorem mem_good_filepaths (top : String) (fs : String → FsTree) (p : String)
    (h : p ∈ good_filepaths top fs) :
    ∃ e ∈ walkTree top (fs top), goodFile e.2 = true ∧ p = yield_path e.1 e.2 := by
  unfold good_filepaths at h
  rw [List.mem_filterMap] at h
  obtain ⟨e, he, hfe⟩ := h
  by_cases hg : goodFile e.2 = true
  · rw [if_pos hg] at hfe
    exact ⟨e, he, hg, (Option.some_inj.mp hfe).symm⟩
  · rw [if_neg hg] at hfe
    exact absurd hfe (by simp)

/-- Claim C5: for every well-formed input tree (names nonempty and
slash-free, as on a real filesystem), every path in the collector's output
is built only from directory components that do not start with `.` or `_`
(followed by a slash-free file part): paths under pruned directories never
appear. -/
theorem spec_c5 (fs : String → FsTree) (hw : (fs ".").wf = true) (p : String)
    (hp : p ∈ good_filepaths "." fs) :
    ∃ segs fpart, (∀ s ∈ segs, s ≠ "" ∧ '/' ∉ s.data
        ∧ s.data.head? ≠ some '.' ∧ s.data.head? ≠ some '_')
      ∧ '/' ∉ fpart.data ∧ p = joinComponents segs fpart := by
  obtain ⟨e, he, hgf, hyp⟩ := mem_good_filepaths "." fs p hp
  obtain ⟨⟨hfne, hfns⟩, hpok, hdisj⟩ :=
    walkTree_decomp "." (fs ".") hw (by decide) (by decide) e he
  cases hdisj with
  | inl h1 =>
    refine ⟨[], String.mk (e.2.data.dropWhile (fun c => c == '.')), ?_, ?_, ?_⟩
    · intro s hs
      exact absurd hs (List.not_mem_nil s)
    · intro hm
      exact hfns ((List.dropWhile_sublist _).subset hm)
    · rw [hyp, h1]
      rw [yield_path_top_eq e.2 hfns]
      rfl
  | inr h2 =>
    obtain ⟨segs, hsne, hsok, hseq⟩ := h2
    obtain ⟨s1, srest, rfl⟩ := List.exists_cons_of_ne_nil hsne
    refine ⟨s1 :: srest, e.2, ?_, hfns, ?_⟩
    · intro s hs
      have hsp := hsok s hs
      have hkd := keepDir_props hsp.2.2
      exact ⟨hsp.1, hsp.2.1, hkd.1, hkd.2⟩
    · rw [hyp, hseq]
      exact yield_path_segs s1 srest hsok e.2 hfns (hseq ▸ hpok)

/-- A small well-formed filesystem used by witnesses: `sorting/x.rs`. -/
def fsW : String → FsTree := fun _ =>
  .node (.cons "sorting" (.node .nil ["x.rs"]) .nil) []

/-- Witness for C5 at a concrete input. -/
theorem spec_c5_witness :
    ((fsW ".").wf = true) ∧ ("sorting/x.rs" ∈ good_filepaths "." fsW)
    ∧ ∃ segs fpart, (∀ s ∈ segs, s ≠ "" ∧ '/' ∉ s.data
        ∧ s.data.head? ≠ some '.' ∧ s.data.head? ≠ some '_')
      ∧ '/' ∉ fpart.data ∧ "sorting/x.rs" = joinComponents segs fpart :=
  ⟨by decide, by decide, spec_c5 fsW (by decide) "sorting/x.rs" (by decide)⟩

/-- The tree used to refute the basename clause of claim C4: one top-level
file named `.mod.rs`. -/
def fsC4 : String → FsTree := fun _ => .node .nil [".mod.rs"]

/-- Claim C4 counterexample: a top-level file named `.mod.rs` passes the
filter (its name differs from `mod.rs` and its extension is `.rs`), but the
`lstrip("./")` normalisation strips the leading dot, so the yielded path is
exactly `mod.rs` — a collector output whose basename is the excluded
name. -/
theorem spec_c4_counterexample :
    good_filepaths "." fsC4 = ["mod.rs"] ∧ (pySplitPath "mod.rs").2 = "mod.rs" := by
  refine ⟨by decide, by decide⟩

/-- Claim C4 (amended): for every well-formed input tree, every yielded path
has lowercased extension `.rs`, and every yielded path comes from a walk
entry whose file name is not `mod.rs` (a file named `mod.rs` itself is never
yielded); however the basename of the yielded path may still read `mod.rs`,
because leading dots are stripped from top-level names (see the
counterexample). -/
theorem spec_c4_amended (fs : String → FsTree) (hw : (fs ".").wf = true) (p : String)
    (hp : p ∈ good_filepaths "." fs) :
    pyLower (pySplitExt p).2 = ".rs"
    ∧ ∃ e ∈ walkTree "." (fs "."), e.2 ≠ "mod.rs" ∧ p = yield_path e.1 e.2 := by
  obtain ⟨e, he, hgf, hyp⟩ := mem_good_filepaths "." fs p hp
  obtain ⟨⟨hfne, hfns⟩, hpok, hdisj⟩ :=
    walkTree_decomp "." (fs ".") hw (by decide) (by decide) e he
  have hgext := goodFile_ext e.2 hgf hfns
  have hne_mod : e.2 ≠ "mod.rs" := by
    unfold goodFile at hgf
    rw [Bool.and_eq_true] at hgf
    exact bne_iff_ne.mp hgf.1
  refine ⟨?_, e, he, hne_mod, hyp⟩
  cases hdisj with
  | inl h1 =>
    rw [hyp, h1, yield_path_top_eq e.2 hfns]
    rw [splitExt_snd_dropdots e.2 hfns hgext.1]
    exact hgext.2
  | inr h2 =>
    obtain ⟨segs, hsne, hsok, hseq⟩ := h2
    obtain ⟨s1, srest, rfl⟩ := List.exists_cons_of_ne_nil hsne
    rw [hyp, hseq, yield_path_segs s1 srest hsok e.2 hfns (hseq ▸ hpok)]
    rw [splitExt_snd_joinComponents (s1 :: srest) e.2 hfns hgext.1]
    exact hgext.2

/-- Witness for the amended C4 at a concrete input. -/
theorem spec_c4_amended_witness :
    ((fsW ".").wf = true) ∧ ("sorting/x.rs" ∈ good_filepaths "." fsW)
    ∧ (pyLower (pySplitExt "sorting/x.rs").2 = ".rs"
      ∧ ∃ e ∈ walkTree "." (fsW "."), e.2 ≠ "mod.rs"
          ∧ "sorting/x.rs" = yield_path e.1 e.2) :=
  ⟨by decide, by decide, spec_c4_amended fsW (by decide) "sorting/x.rs" (by decide)⟩

/-! ### Claim C6: global sortedness of the output order -/

theorem lexLe_total : ∀ as bs : List Char, lexLe as bs = true ∨ lexLe bs as = true
  | [], _ => Or.inl rfl
  | _ :: _, [] => Or.inr rfl
  | a :: as, b :: bs => by
    by_cases hab : a = b
    · subst hab
      cases lexLe_total as bs with
      | inl h => exact Or.inl (by simp [lexLe, h])
      | inr h => exact Or.inr (by simp [lexLe, h])
    · cases lt_or_gt_of_ne hab with
      | inl h => exact Or.inl (by simp [lexLe, hab, h])
      | inr h =>
        refine Or.inr ?_
        have hba : b ≠ a := fun he => hab he.symm
        simp [lexLe, hba, h]

theorem lexLe_trans : ∀ as bs cs : List Char,
    lexLe as bs = true → lexLe bs cs = true → lexLe as cs = true
  | [], _, _, _, _ => rfl
  | _ :: _, [], _, h1, _ => by simp [lexLe] at h1
  | _ :: _, _ :: _, [], _, h2 => by simp [lexLe] at h2
  | a :: as, b :: bs, c :: cs, h1, h2 => by
    by_cases hab : a = b
    · subst hab
      by_cases hac : a = c
      · subst hac
        rw [lexLe] at h1 h2 ⊢
        rw [if_pos rfl] at h1 h2 ⊢
        exact lexLe_trans as bs cs h1 h2
      · rw [lexLe] at h2 ⊢
        rw [if_neg hac] at h2 ⊢
        exact h2
    · by_cases hbc : b = c
      · subst hbc
        rw [lexLe] at h1 ⊢
        rw [if_neg hab] at h1 ⊢
        exact h1
      · rw [lexLe] at h1 h2 ⊢
        rw [if_neg hab] at h1
        rw [if_neg hbc] at h2
        have hlt1 : a < b := of_decide_eq_true h1
        have hlt2 : b < c := of_decide_eq_true h2
        have hlt : a < c := lt_trans hlt1 hlt2
        rw [if_neg (ne_of_lt hlt)]
        exact decide_eq_true hlt

instance : IsTotal String lowerLe :=
  ⟨fun a b => lexLe_total (pyLower a).data (pyLower b).data⟩

instance : IsTrans String lowerLe :=
  ⟨fun a b c => lexLe_trans (pyLower a).data (pyLower b).data (pyLower c).data⟩

/-- Claim C6: in the sorted list that the builder processes (and whose
order the output file entries follow), any entry `a` preceding an entry `b`
satisfies `lower(a) <= lower(b)`: `lowerLe a b` holds, i.e. the lowercased
path of `a` is lexicographically at most that of `b` in the code-point
order Python's string comparison uses. -/
theorem spec_c6 (fs : String → FsTree) :
    List.Pairwise lowerLe (sorted_good_filepaths fs) :=
  List.sorted_insertionSort lowerLe (good_filepaths "." fs)
